import Mathlib

/-!
Verification of the sprite-sheet packing and procedural switch-animation
synthesis subsystem (createSpritesheets.py, createAttackSpritesheets.py,
spritesheet.py).

Shallow embedding conventions:
* Python floats are modelled as exact rationals (ℚ); `int(...)` is
  truncation toward zero (`pyInt`), `round(...)` is round-half-to-even
  (`pyRound`), `enumerate` is `pyEnum`.
* The ambient random generator is threaded explicitly as an oracle
  (`RandO`): the theorems hold for every sequence of random draws.
* The transcendental functions `math.cos`/`math.sin` applied to rational
  multiples of π are abstracted as an oracle (`TrigO` : `cosPi q` stands
  for cos(q·π), `sinPi q` for sin(q·π)); theorems assume only the exact
  trigonometric identities they need (e.g. cos π = -1).  `(..)**0.5` is
  abstracted as `SqrtO`.
* `hashlib.md5` over raw pixel bytes is modelled as an injective content
  function, i.e. the identity on frame contents (`frame_hash`).
-/

/-- Python `int(q)` on a float: truncation toward zero. -/
def pyInt (q : ℚ) : ℤ := if 0 ≤ q then ⌊q⌋ else ⌈q⌉

/-- Python `round(q)`: round half to even (banker's rounding). -/
def pyRound (q : ℚ) : ℤ :=
  if q - ⌊q⌋ < 1/2 then ⌊q⌋
  else if 1/2 < q - ⌊q⌋ then ⌊q⌋ + 1
  else if ⌊q⌋ % 2 = 0 then ⌊q⌋ else ⌊q⌋ + 1

/-- Python `enumerate`, starting at index `i`. -/
def pyEnumFrom {α : Type} (i : ℕ) : List α → List (ℕ × α)
  | [] => []
  | a :: as => (i, a) :: pyEnumFrom (i + 1) as

/-- Python `enumerate(l)`. -/
def pyEnum {α : Type} (l : List α) : List (ℕ × α) := pyEnumFrom 0 l

/-! ## Atlas packer (`build_spritesheet`)

`cols = math.ceil(math.sqrt(n))`, `rows = math.ceil(n / cols)`; frame `i`
is pasted at `((i % cols) * frame_w, (i // cols) * frame_h)`. -/

/-- `math.ceil(math.sqrt n)` for a natural number `n`. -/
def ceilSqrt (n : ℕ) : ℕ :=
  if Nat.sqrt n * Nat.sqrt n = n then Nat.sqrt n else Nat.sqrt n + 1

/-- `math.ceil(a / b)` for naturals (`b > 0` in all uses). -/
def natCeilDiv (a b : ℕ) : ℕ := (a + b - 1) / b

/-- Grid column count chosen by `build_spritesheet`. -/
def build_spritesheet_cols (n : ℕ) : ℕ := ceilSqrt n

/-- Grid row count chosen by `build_spritesheet`. -/
def build_spritesheet_rows (n : ℕ) : ℕ := natCeilDiv n (ceilSqrt n)

/-- The list of paste positions produced by `build_spritesheet` for `n`
frames of size `w × h`, in input order. -/
def build_spritesheet_positions (n w h : ℕ) : List (ℕ × ℕ) :=
  (List.range n).map fun i =>
    ((i % build_spritesheet_cols n) * w, (i / build_spritesheet_cols n) * h)

/-- The `(width, height)` of the canvas allocated by `build_spritesheet`:
`Image.new('RGBA', (cols * frame_w, rows * frame_h))`. -/
def build_spritesheet_size (n w h : ℕ) : ℕ × ℕ :=
  (build_spritesheet_cols n * w, build_spritesheet_rows n * h)

/-! ## Frame source reader (`find_valid_attack_pngs`,
`extract_frames_from_spritesheet`) -/

/-- One frame sliced out of a tiled PNG: its source rectangle (top-left
`(x, y)`, size `w × h`) and whether a vertical flip was applied. -/
structure SubFrame where
  x : ℕ
  y : ℕ
  w : ℕ
  h : ℕ
  flipped : Bool
deriving DecidableEq, Repr

/-- The divisibility gate of `find_valid_attack_pngs` for one file: an
image of pixel size `w × h` with declared frame size `sw × sh` is accepted
(returning `(cols, rows)`) iff both dimensions divide evenly. -/
def find_valid_attack_png (w h sw sh : ℕ) : Option (ℕ × ℕ) :=
  if w % sw = 0 ∧ h % sh = 0 then some (w / sw, h / sh) else none

/-- `extract_frames_from_spritesheet`: slice `cols × rows` frames of size
`fw × fh`, left-to-right then top-to-bottom, optionally cropping
`(top, right, bottom, left)` pixels and vertically flipping each frame. -/
def extract_frames_from_spritesheet (cols rows fw fh : ℕ)
    (crop : Option (ℕ × ℕ × ℕ × ℕ)) (vflip : Bool) : List SubFrame :=
  (List.range rows).flatMap fun row =>
    (List.range cols).map fun col =>
      let x := col * fw
      let y := row * fh
      let fr : SubFrame :=
        match crop with
        | some (top, right, bottom, left) =>
            ⟨x + left, y + top, fw - right - left, fh - bottom - top, false⟩
        | none => ⟨x, y, fw, fh, false⟩
      if vflip then { fr with flipped := true } else fr

/-- Reading one tiled source end to end: a rejected file contributes zero
frames (it is skipped, never truncated); an accepted one is sliced. -/
def readTiledSource (w h sw sh : ℕ) : List SubFrame :=
  match find_valid_attack_png w h sw sh with
  | some (cols, rows) => extract_frames_from_spritesheet cols rows sw sh none false
  | none => []

/-! ## Frame deduplicator (`process_gachachacha_variants`)

Frames are abstracted by their raw content (`α` with decidable equality);
`hashlib.md5(frame.tobytes())` is modelled as an injective function of the
content, i.e. the identity. -/

/-- Content hash of a frame (md5 modelled as injective, hence identity). -/
def frame_hash {α : Type} (a : α) : α := a

/-- Lookup in the `frame_hash_to_index` dictionary. -/
def tableLookup {α : Type} [DecidableEq α] (t : List (α × ℕ)) (a : α) : Option ℕ :=
  (t.find? fun p => p.1 = a).map (·.2)

/-- `if h not in frame_hash_to_index: frame_hash_to_index[h] = len(unique_frames);
unique_frames.append(frame)` followed by reading `frame_hash_to_index[h]`.
Returns the new pool, the new table and the index assigned to `a`. -/
def poolInsert {α : Type} [DecidableEq α] (pool : List α) (table : List (α × ℕ))
    (a : α) : List α × List (α × ℕ) × ℕ :=
  match tableLookup table a with
  | some i => (pool, table, i)
  | none => (pool ++ [a], table ++ [(a, pool.length)], pool.length)

/-- State of the deduplication loop: the unique-frame pool, the
hash-to-index table, and the per-variant index lists (in variant order). -/
structure DedupSt (α : Type) where
  pool : List α
  table : List (α × ℕ)
  indices : List (List ℕ)
deriving Repr

/-- The `for name, frame in frames_at_pos` loop of the not-all-same
branch: pool each variant's frame in order, collecting the index assigned
to each variant. -/
def dedupInsertEach {α : Type} [DecidableEq α] (pt : List α × List (α × ℕ))
    (acc : List ℕ) : List α → (List α × List (α × ℕ)) × List ℕ
  | [] => (pt, acc)
  | f :: fs =>
    let r := poolInsert pt.1 pt.2 (frame_hash f)
    dedupInsertEach (r.1, r.2.1) (acc ++ [r.2.2]) fs

/-- One iteration of the `for frame_idx in range(frame_count)` loop of
`process_gachachacha_variants`, given the frames of every variant at that
position.  If all hashes agree the single frame is pooled once and its
index appended to every variant; otherwise each variant's frame is pooled
(first-seen order across variants) and its own index appended. -/
def dedupStep {α : Type} [DecidableEq α] (st : DedupSt α) (framesAtPos : List α) :
    DedupSt α :=
  if (framesAtPos.map frame_hash).dedup.length = 1 then
    match framesAtPos with
    | [] => st
    | f :: _ =>
      let r := poolInsert st.pool st.table (frame_hash f)
      ⟨r.1, r.2.1, st.indices.map fun l => l ++ [r.2.2]⟩
  else
    let r := dedupInsertEach (st.pool, st.table) [] framesAtPos
    ⟨r.1.1, r.1.2, List.zipWith (fun l i => l ++ [i]) st.indices r.2⟩

/-- `process_gachachacha_variants`: deduplicate the variant frame
sequences `vs` (in variant order), returning the unique-frame pool and the
per-variant lists of pool indices.  `frame_count` is the first variant's
length, as in the source. -/
def process_gachachacha_variants {α : Type} [DecidableEq α] [Inhabited α]
    (vs : List (List α)) : List α × List (List ℕ) :=
  let frameCount := (vs.headD []).length
  let final := (List.range frameCount).foldl
    (fun st i => dedupStep st (vs.map fun v => v.getD i default))
    ⟨[], [], vs.map fun _ => []⟩
  (final.pool, final.indices)

/-! ## Metadata emitter -/

/-- One `switchIn`/`switchOut` record of the mon spritesheet document. -/
structure SwitchAnim where
  msPerFrame : ℕ
  frames : List (ℕ × ℕ)
deriving DecidableEq, Repr

/-- One named entry of the mon spritesheet document (`spritesheet.json`)
as assembled by `create_spritesheets`. -/
structure MonEntry where
  msPerFrame : ℕ
  frames : List (ℕ × ℕ)
  switchOut : SwitchAnim
  switchIn : SwitchAnim
deriving DecidableEq, Repr

/-- The metadata finalization of `create_spritesheets` for one mon: main
frames are looked up in `positions`, switch frames in `switch_positions`;
`switchOut` is the forward morph sequence and `switchIn` is the same list
reversed (`switch_frames[::-1]`), both at 100 ms per frame. -/
def monEntry (frameRate mainStart mainCount switchStart switchCount : ℕ)
    (positions switchPositions : List (ℕ × ℕ)) : MonEntry :=
  let switchFrames := (List.range switchCount).map fun i =>
    switchPositions.getD (switchStart + i) (0, 0)
  { msPerFrame := frameRate
    frames := (List.range mainCount).map fun i => positions.getD (mainStart + i) (0, 0)
    switchOut := ⟨100, switchFrames⟩
    switchIn := ⟨100, switchFrames.reverse⟩ }

/-- The per-GIF extraction results feeding `create_spritesheets`:
`msPerFrame` is the frame rate read from the GIF on this run. -/
structure GifExtract where
  name : String
  msPerFrame : ℕ
  mainStart : ℕ
  mainCount : ℕ
  switchStart : ℕ
  switchCount : ℕ
deriving Repr

/-- The whole mon spritesheet document written by `create_spritesheets`.
Note the signature: the function of the source never reads the previously
emitted `spritesheet.json`, so the document is a function of the current
extraction results alone. -/
def create_spritesheets_metadata (gifs : List GifExtract)
    (positions switchPositions : List (ℕ × ℕ)) : List (String × MonEntry) :=
  gifs.map fun g =>
    (g.name, monEntry g.msPerFrame g.mainStart g.mainCount g.switchStart g.switchCount
      positions switchPositions)

/-- One named entry of the attack spritesheet document. -/
structure AttackEntry where
  msPerFrame : ℕ
  width : ℕ
  height : ℕ
  frames : List (ℕ × ℕ)
deriving DecidableEq, Repr

/-- Internal (pre-finalization) metadata of `process_size_group`: either a
regular run of frames or a deduplicated gachachacha index list. -/
inductive SizeMetaEntry : Type
  | regular (start count : ℕ)
  | gacha (start : ℕ) (indices : List ℕ)
deriving DecidableEq, Repr

/-- `existing_metadata.get(name, {}).get("msPerFrame", ...)`: the
previously persisted duration for `name`, if any.  The previous document
is modelled by the association list of the `msPerFrame` values it holds. -/
def msLookup (ex : List (String × ℕ)) (name : String) : Option ℕ :=
  (ex.find? fun p => p.1 = name).map (·.2)

/-- `finalize_metadata` of `createAttackSpritesheets`: converts internal
indices to positions and substitutes the previously persisted `msPerFrame`
(default 100) for every name. -/
def finalize_metadata (sm : List (String × SizeMetaEntry × (ℕ × ℕ)))
    (positions : List (ℕ × ℕ)) (ex : List (String × ℕ)) : List (String × AttackEntry) :=
  sm.map fun e =>
    let name := e.1
    let sz := e.2.2
    let ms := (msLookup ex name).getD 100
    match e.2.1 with
    | .regular start count =>
        (name, ⟨ms, sz.1, sz.2, (List.range count).map fun i => positions.getD (start + i) (0, 0)⟩)
    | .gacha start indices =>
        (name, ⟨ms, sz.1, sz.2, indices.map fun idx => positions.getD (start + idx) (0, 0)⟩)

/-! ## Silhouette & morph synthesizer (`create_morphing_animation`) -/

/-- Oracle for `math.cos`/`math.sin` at rational multiples of π:
`cosPi q` stands for cos(q·π) and `sinPi q` for sin(q·π). -/
structure TrigO where
  cosPi : ℚ → ℚ
  sinPi : ℚ → ℚ

/-- Oracle for `(dx**2 + dy**2)**0.5`. -/
structure SqrtO where
  sqrtQ : ℚ → ℚ

/-- Oracle for the ambient random generator: for start pixel `i`,
`angleCos i`/`angleSin i` are cos/sin of the random boundary angle and
`ctrlDX i`/`ctrlDY i` are the two `random.uniform(-8, 8)` control-point
jitters. -/
structure RandO where
  angleCos : ℕ → ℚ
  angleSin : ℕ → ℚ
  ctrlDX : ℕ → ℚ
  ctrlDY : ℕ → ℚ

/-- One entry of `pixel_data`: start pixel, assigned target, Bezier
control point, and the `survives` flag (`i < total_final_pixels`). -/
structure PixelDatum where
  sx : ℕ
  sy : ℕ
  tx : ℤ
  ty : ℤ
  ctrlx : ℚ
  ctrly : ℚ
  survives : Bool

/-- One generated frame: its canvas size and the list of drawn pixels
(opaque white; overlapping draws simply repeat a coordinate). -/
structure MorphFrame where
  width : ℕ
  height : ℕ
  drawn : List (ℤ × ℤ)

/-- Diamond center: `(w // 4, int(h * 0.65))` for back sprites, else
`(w // 2, h // 2)`. -/
def morphCenter (w h : ℕ) (back : Bool) : ℤ × ℤ :=
  if back then (((w / 4 : ℕ) : ℤ), pyInt ((h : ℚ) * (65 / 100)))
  else (((w / 2 : ℕ) : ℤ), ((h / 2 : ℕ) : ℤ))

/-- The opaque ("white") pixels of the silhouette, enumerated row by row
(`for y in range(h): for x in range(w)`), i.e. all `(x, y)` with alpha
strictly positive. -/
def whitePixels (w h : ℕ) (alpha : ℕ → ℕ → ℕ) : List (ℕ × ℕ) :=
  (List.range h).flatMap fun (y : ℕ) =>
    (List.range w).filterMap fun (x : ℕ) =>
      if 0 < alpha x y then some (x, y) else none

/-- The target diamond's member pixels within the canvas, enumerated row
by row: all `(x, y)` with `|x - cx| / 4 + |y - cy| / 7 ≤ 1` (half width
4.0, half height 7.0). -/
def diamondPixels (w h : ℕ) (cx cy : ℤ) : List (ℕ × ℕ) :=
  (List.range h).flatMap fun (y : ℕ) =>
    (List.range w).filterMap fun (x : ℕ) =>
      if |(x : ℚ) - (cx : ℚ)| / 4 + |(y : ℚ) - (cy : ℚ)| / 7 ≤ 1 then some (x, y) else none

/-- `edge_distance = min(half_width, half_height) * 0.8`. -/
def edgeDist : ℚ := min 4 7 * (8 / 10)

/-- One entry of `pixel_data` for the enumerated start pixel `ip`: pair
the `i`-th start pixel with the `i`-th final-set pixel when
`i < total_final`, otherwise with a random point near the diamond
boundary; add a jittered midpoint Bezier control point; flag survival. -/
def mkPixelDatum (O : RandO) (cx cy : ℤ) (totalFinal : ℕ) (diamond : List (ℕ × ℕ))
    (ip : ℕ × (ℕ × ℕ)) : PixelDatum :=
  let i := ip.1
  let s := ip.2
  let tgt : ℤ × ℤ :=
    if i < totalFinal then
      let d := diamond.getD i (0, 0)
      ((d.1 : ℤ), (d.2 : ℤ))
    else
      (cx + pyInt (edgeDist * O.angleCos i), cy + pyInt (edgeDist * O.angleSin i))
  { sx := s.1
    sy := s.2
    tx := tgt.1
    ty := tgt.2
    ctrlx := ((s.1 : ℚ) + (tgt.1 : ℚ)) / 2 + O.ctrlDX i
    ctrly := ((s.2 : ℚ) + (tgt.2 : ℚ)) / 2 + O.ctrlDY i
    survives := decide (i < totalFinal) }

/-- `pixel_data`: one `PixelDatum` per enumerated start pixel. -/
def pixelData (O : RandO) (cx cy : ℤ) (totalFinal : ℕ) (diamond : List (ℕ × ℕ))
    (whites : List (ℕ × ℕ)) : List PixelDatum :=
  (pyEnum whites).map (mkPixelDatum O cx cy totalFinal diamond)

/-- Quadratic Bezier `(1-t)²·s + 2(1-t)t·c + t²·e`. -/
def morphBezier (t s c e : ℚ) : ℚ := (1 - t) ^ 2 * s + 2 * (1 - t) * t * c + t ^ 2 * e

/-- The radial deformation step: displace `(px, py)` away from the center
by `factor = 1 + deform * sin2 / dist`, guarded by `dist > 0`. -/
def radialDeform (S : SqrtO) (deform sin2 : ℚ) (cx cy px py : ℚ) : ℚ × ℚ :=
  let dx := px - cx
  let dy := py - cy
  let dist := S.sqrtQ (dx ^ 2 + dy ^ 2)
  if 0 < dist then
    let factor := 1 + deform * sin2 / dist
    (cx + dx * factor, cy + dy * factor)
  else (px, py)

/-- Division that fails (returns `none`) on a zero divisor, used to show
the radial deformation never divides by zero. -/
def checkedDiv (a b : ℚ) : Option ℚ := if b = 0 then none else some (a / b)

/-- `radialDeform` with the division-by-zero branch made explicit: `none`
would signal a division by zero. -/
def radialDeformChecked (S : SqrtO) (deform sin2 : ℚ) (cx cy px py : ℚ) :
    Option (ℚ × ℚ) :=
  let dx := px - cx
  let dy := py - cy
  let dist := S.sqrtQ (dx ^ 2 + dy ^ 2)
  if 0 < dist then
    (checkedDiv (deform * sin2) dist).map fun q => (cx + dx * (1 + q), cy + dy * (1 + q))
  else some (px, py)

/-- Computed integer position of one pixel at eased progress `t`: Bezier
interpolation, radial deformation, then rounding. -/
def pixelPos (S : SqrtO) (cx cy : ℤ) (t deform sin2 : ℚ) (pd : PixelDatum) : ℤ × ℤ :=
  let px := morphBezier t (pd.sx : ℚ) pd.ctrlx (pd.tx : ℚ)
  let py := morphBezier t (pd.sy : ℚ) pd.ctrly (pd.ty : ℚ)
  let q := radialDeform S deform sin2 (cx : ℚ) (cy : ℚ) px py
  (pyRound q.1, pyRound q.2)

/-- `pixelPos` with the checked radial deformation. -/
def pixelPosChecked (S : SqrtO) (cx cy : ℤ) (t deform sin2 : ℚ) (pd : PixelDatum) :
    Option (ℤ × ℤ) :=
  let px := morphBezier t (pd.sx : ℚ) pd.ctrlx (pd.tx : ℚ)
  let py := morphBezier t (pd.sy : ℚ) pd.ctrly (pd.ty : ℚ)
  (radialDeformChecked S deform sin2 (cx : ℚ) (cy : ℚ) px py).map fun q =>
    (pyRound q.1, pyRound q.2)

/-- `visible_count = max(int(total_start*(1 - p*0.4) + total_final*p*0.4),
total_final)`. -/
def visibleCount (totalStart totalFinal : ℕ) (progress : ℚ) : ℤ :=
  max (pyInt ((totalStart : ℚ) * (1 - progress * (2 / 5)) +
    (totalFinal : ℚ) * progress * (2 / 5))) (totalFinal : ℤ)

/-- `progress = frame_idx / (num_frames - 1)`. -/
def morphProgress (numFrames f : ℕ) : ℚ := (f : ℚ) / ((numFrames : ℚ) - 1)

/-- The draw decision for one enumerated pixel of one frame: compute its
position; draw it iff it survives or its index is below `visible_count`,
and the position lies on the canvas. -/
def morphDraw (S : SqrtO) (w h : ℕ) (cx cy : ℤ) (t deform sin2 : ℚ) (vc : ℤ)
    (ip : ℕ × PixelDatum) : Option (ℤ × ℤ) :=
  let pos := pixelPos S cx cy t deform sin2 ip.2
  if (ip.2.survives || decide ((ip.1 : ℤ) < vc)) &&
      (decide (0 ≤ pos.1) && decide (pos.1 < (w : ℤ)) &&
       decide (0 ≤ pos.2) && decide (pos.2 < (h : ℤ))) then
    some pos
  else none

/-- One output frame of `create_morphing_animation`. -/
def morphFrame (T : TrigO) (S : SqrtO) (w h : ℕ) (cx cy : ℤ)
    (totalStart totalFinal : ℕ) (pds : List PixelDatum) (numFrames f : ℕ) : MorphFrame :=
  let progress := morphProgress numFrames f
  let t := 1 / 2 * (1 - T.cosPi progress)
  let deform := T.sinPi progress * 3
  let sin2 := T.sinPi (2 * progress)
  let vc := visibleCount totalStart totalFinal progress
  { width := w
    height := h
    drawn := (pyEnum pds).filterMap (morphDraw S w h cx cy t deform sin2 vc) }

/-- `create_morphing_animation`: the full `numFrames`-frame morph of the
silhouette given by `alpha` on a `w × h` canvas. -/
def create_morphing_animation (T : TrigO) (S : SqrtO) (O : RandO)
    (alpha : ℕ → ℕ → ℕ) (w h numFrames : ℕ) (back : Bool) : List MorphFrame :=
  let c := morphCenter w h back
  let whites := whitePixels w h alpha
  let diamond := diamondPixels w h c.1 c.2
  let pds := pixelData O c.1 c.2 diamond.length diamond whites
  (List.range numFrames).map
    (morphFrame T S w h c.1 c.2 whites.length diamond.length pds numFrames)

/-- Frame `f` of the animation, as mapped by `create_morphing_animation`
over `range numFrames`. -/
def morphFrameAt (T : TrigO) (S : SqrtO) (O : RandO) (alpha : ℕ → ℕ → ℕ)
    (w h numFrames f : ℕ) (back : Bool) : MorphFrame :=
  let c := morphCenter w h back
  let whites := whitePixels w h alpha
  let diamond := diamondPixels w h c.1 c.2
  let pds := pixelData O c.1 c.2 diamond.length diamond whites
  morphFrame T S w h c.1 c.2 whites.length diamond.length pds numFrames f

/-- The draw decision of `morphDraw` restricted to survivor pixels: same
position computation and canvas check, but keeping only pixels flagged
`survives`. -/
def survivorDraw (S : SqrtO) (w h : ℕ) (cx cy : ℤ) (t deform sin2 : ℚ)
    (ip : ℕ × PixelDatum) : Option (ℤ × ℤ) :=
  let pos := pixelPos S cx cy t deform sin2 ip.2
  if ip.2.survives &&
      (decide (0 ≤ pos.1) && decide (pos.1 < (w : ℤ)) &&
       decide (0 ≤ pos.2) && decide (pos.2 < (h : ℤ))) then
    some pos
  else none

/-- The drawn positions of frame `f` restricted to the pixels flagged
`survives` (such pixels always pass the visibility test, so this is the
survivor part of the frame's drawn set). -/
def survivorDrawnAt (T : TrigO) (S : SqrtO) (O : RandO) (alpha : ℕ → ℕ → ℕ)
    (w h numFrames f : ℕ) (back : Bool) : List (ℤ × ℤ) :=
  let c := morphCenter w h back
  let whites := whitePixels w h alpha
  let diamond := diamondPixels w h c.1 c.2
  let pds := pixelData O c.1 c.2 diamond.length diamond whites
  let progress := morphProgress numFrames f
  let t := 1 / 2 * (1 - T.cosPi progress)
  let deform := T.sinPi progress * 3
  let sin2 := T.sinPi (2 * progress)
  (pyEnum pds).filterMap (survivorDraw S w h c.1 c.2 t deform sin2)

/-! Concrete oracles used by the witnesses. -/

/-- A concrete trig oracle satisfying cos(0·π) = 1, cos(1·π) = -1 and
sin(q·π) = 0 at integer q. -/
def trigW : TrigO :=
  ⟨fun q => if q = 0 then 1 else if q = 1 then -1 else 0, fun _ => 0⟩

/-- A concrete square-root oracle: positive on positive input, 0 at 0. -/
def sqrtW : SqrtO := ⟨fun q => if 0 < q then 1 else 0⟩

/-- A concrete randomness oracle (angle fixed at 0, no jitter). -/
def randW : RandO := ⟨fun _ => 1, fun _ => 0, fun _ => 0, fun _ => 0⟩

/-- Fully opaque silhouette. -/
def alphaOne : ℕ → ℕ → ℕ := fun _ _ => 1

/-- Fully transparent silhouette. -/
def alphaZero : ℕ → ℕ → ℕ := fun _ _ => 0

/-- A silhouette with a single opaque pixel at the origin. -/
def alphaSingle : ℕ → ℕ → ℕ := fun x y => if x = 0 ∧ y = 0 then 1 else 0

/-! # Theorems -/

/-! ## C1: atlas packing -/

theorem ceilSqrt_le_sq (n : ℕ) : n ≤ ceilSqrt n * ceilSqrt n := by
  unfold ceilSqrt
  split
  · omega
  · have h := Nat.lt_succ_sqrt n
    simp only [Nat.succ_eq_add_one] at h
    omega

theorem ceilSqrt_pos {n : ℕ} (hn : 1 ≤ n) : 0 < ceilSqrt n := by
  unfold ceilSqrt
  have h := Nat.sqrt_pos.mpr hn
  split <;> omega

theorem le_cols_mul_rows {n : ℕ} (hn : 1 ≤ n) :
    n ≤ build_spritesheet_cols n * build_spritesheet_rows n := by
  have hc : 0 < ceilSqrt n := ceilSqrt_pos hn
  unfold build_spritesheet_cols build_spritesheet_rows natCeilDiv
  have hdm := Nat.div_add_mod (n + ceilSqrt n - 1) (ceilSqrt n)
  have hm : (n + ceilSqrt n - 1) % ceilSqrt n < ceilSqrt n := Nat.mod_lt _ hc
  set q := (n + ceilSqrt n - 1) / ceilSqrt n with hq
  set r := (n + ceilSqrt n - 1) % ceilSqrt n with hr
  set m := ceilSqrt n * q with hmq
  omega

/-- Claim C1: for `n ≥ 1` frames of fixed positive size `(w, h)`,
`build_spritesheet` places frame `i` at `((i % cols) * w, (i / cols) * h)`
with `cols = ceilSqrt n` (the ceiling of the square root: `cols² ≥ n` and
`(cols - 1)² < n`); all `n` placements are pairwise distinct, every
placement is a multiple of the frame size and fits inside the canvas, and
the canvas is exactly `ceilSqrt n * w` by `ceil(n / ceilSqrt n) * h`. -/
theorem build_spritesheet_positions_correct (n w h : ℕ) (hn : 1 ≤ n)
    (hw : 0 < w) (hh : 0 < h) :
    (build_spritesheet_positions n w h).length = n ∧
    (∀ i, i < n → (build_spritesheet_positions n w h)[i]? =
      some ((i % ceilSqrt n) * w, (i / ceilSqrt n) * h)) ∧
    (∀ i j, i < n → j < n → i ≠ j →
      (build_spritesheet_positions n w h)[i]? ≠ (build_spritesheet_positions n w h)[j]?) ∧
    (∀ p ∈ build_spritesheet_positions n w h, w ∣ p.1 ∧ h ∣ p.2) ∧
    (∀ p ∈ build_spritesheet_positions n w h,
      p.1 + w ≤ (build_spritesheet_size n w h).1 ∧
      p.2 + h ≤ (build_spritesheet_size n w h).2) ∧
    build_spritesheet_size n w h = (ceilSqrt n * w, natCeilDiv n (ceilSqrt n) * h) ∧
    n ≤ ceilSqrt n * ceilSqrt n ∧ (ceilSqrt n - 1) * (ceilSqrt n - 1) < n := by
  have hc : 0 < ceilSqrt n := ceilSqrt_pos hn
  have hcodom : ∀ i, i < n → (build_spritesheet_positions n w h)[i]? =
      some ((i % ceilSqrt n) * w, (i / ceilSqrt n) * h) := by
    intro i hi
    simp [build_spritesheet_positions, build_spritesheet_cols, List.getElem?_map,
      List.getElem?_range, hi]
  refine ⟨by simp [build_spritesheet_positions], hcodom, ?_, ?_, ?_, rfl, ceilSqrt_le_sq n, ?_⟩
  · intro i j hi hj hij heq
    rw [hcodom i hi, hcodom j hj] at heq
    simp only [Option.some.injEq, Prod.mk.injEq] at heq
    obtain ⟨h1, h2⟩ := heq
    have e1 : i % ceilSqrt n = j % ceilSqrt n := Nat.eq_of_mul_eq_mul_right hw h1
    have e2 : i / ceilSqrt n = j / ceilSqrt n := Nat.eq_of_mul_eq_mul_right hh h2
    apply hij
    have d1 := Nat.div_add_mod i (ceilSqrt n)
    have d2 := Nat.div_add_mod j (ceilSqrt n)
    rw [← d1, ← d2, e1, e2]
  · intro p hp
    simp only [build_spritesheet_positions, List.mem_map, List.mem_range] at hp
    obtain ⟨i, _, rfl⟩ := hp
    exact ⟨dvd_mul_left w _, dvd_mul_left h _⟩
  · intro p hp
    simp only [build_spritesheet_positions, List.mem_map, List.mem_range] at hp
    obtain ⟨i, hi, rfl⟩ := hp
    constructor
    · have h1 : i % build_spritesheet_cols n + 1 ≤ build_spritesheet_cols n :=
        Nat.mod_lt _ (by simpa [build_spritesheet_cols] using hc)
      calc (i % build_spritesheet_cols n) * w + w
          = (i % build_spritesheet_cols n + 1) * w := by ring
        _ ≤ build_spritesheet_cols n * w := Nat.mul_le_mul_right w h1
    · have h2 : i / build_spritesheet_cols n < build_spritesheet_rows n := by
        have hcr := le_cols_mul_rows hn
        have : i < build_spritesheet_rows n * build_spritesheet_cols n := by
          calc i < n := hi
            _ ≤ build_spritesheet_cols n * build_spritesheet_rows n := hcr
            _ = build_spritesheet_rows n * build_spritesheet_cols n := Nat.mul_comm _ _
        exact Nat.div_lt_iff_lt_mul (by simpa [build_spritesheet_cols] using hc) |>.mpr this
      calc (i / build_spritesheet_cols n) * h + h
          = (i / build_spritesheet_cols n + 1) * h := by ring
        _ ≤ build_spritesheet_rows n * h := Nat.mul_le_mul_right h h2
  · unfold ceilSqrt
    have hs : Nat.sqrt n * Nat.sqrt n ≤ n := by simpa [pow_two] using Nat.sqrt_le' n
    split
    · rename_i hsq
      have hpos := Nat.sqrt_pos.mpr hn
      calc (Nat.sqrt n - 1) * (Nat.sqrt n - 1)
          ≤ (Nat.sqrt n - 1) * Nat.sqrt n := Nat.mul_le_mul_left _ (by omega)
        _ < Nat.sqrt n * Nat.sqrt n := Nat.mul_lt_mul_of_lt_of_le (by omega) le_rfl hpos
        _ = n := hsq
    · rename_i hsq
      have : Nat.sqrt n + 1 - 1 = Nat.sqrt n := by omega
      rw [this]
      omega

/-- Claim C6: a 288×96 tiled PNG with declared frame size 96 is read as
exactly 3 frames sliced at (0,0), (96,0), (192,0) in row-major order; a
290×96 image with the same frame size is rejected as not divisible and
produces zero frames. -/
theorem tiled_reader_concrete :
    readTiledSource 288 96 96 96 =
      [⟨0, 0, 96, 96, false⟩, ⟨96, 0, 96, 96, false⟩, ⟨192, 0, 96, 96, false⟩] ∧
    readTiledSource 290 96 96 96 = [] := by
  constructor <;> decide

/-! ## Helper lemmas about `pyEnumFrom` -/

theorem pyEnumFrom_length {α : Type} (k : ℕ) (l : List α) :
    (pyEnumFrom k l).length = l.length := by
  induction l generalizing k with
  | nil => rfl
  | cons a as ih => simp [pyEnumFrom, ih]

theorem pyEnumFrom_get {α : Type} (k : ℕ) (l : List α) (i : ℕ)
    (h : i < (pyEnumFrom k l).length) :
    (pyEnumFrom k l).get ⟨i, h⟩ = (k + i, l.get ⟨i, by rw [← pyEnumFrom_length k l]; exact h⟩) := by
  induction l generalizing k i with
  | nil => simp [pyEnumFrom] at h
  | cons a as ih =>
    cases i with
    | zero => simp [pyEnumFrom]
    | succ i =>
      have h' : i < (pyEnumFrom (k + 1) as).length := by
        simpa [pyEnumFrom] using h
      simp only [pyEnumFrom, List.get_cons_succ]
      rw [ih (k + 1) i h']
      simp
      omega

theorem pyEnumFrom_append_singleton {α : Type} (k : ℕ) (l : List α) (a : α) :
    pyEnumFrom k (l ++ [a]) = pyEnumFrom k l ++ [(k + l.length, a)] := by
  induction l generalizing k with
  | nil => simp [pyEnumFrom]
  | cons b bs ih =>
    have h : k + 1 + bs.length = k + (bs.length + 1) := by omega
    simp only [List.cons_append, pyEnumFrom, List.append_eq, ih (k + 1), List.length_cons, h]

theorem pyEnumFrom_fst_mem {α : Type} (k : ℕ) (l : List α) (p : ℕ × α)
    (hp : p ∈ pyEnumFrom k l) : p.2 ∈ l := by
  induction l generalizing k with
  | nil => simp [pyEnumFrom] at hp
  | cons a as ih =>
    simp only [pyEnumFrom, List.mem_cons] at hp
    rcases hp with h | h
    · subst h; simp
    · exact List.mem_cons_of_mem _ (ih (k + 1) h)

/-! ## C3 / C7: frame deduplication -/

theorem dedup_replicate_succ {α : Type} [DecidableEq α] (n : ℕ) (a : α) :
    (List.replicate (n + 1) a).dedup = [a] := by
  induction n with
  | zero => simp
  | succ n ih =>
    rw [List.replicate_succ, List.dedup_cons_of_mem (by simp [List.mem_replicate]), ih]

theorem dedupInsertEach_snd_length {α : Type} [DecidableEq α] (fs : List α)
    (pt : List α × List (α × ℕ)) (acc : List ℕ) :
    (dedupInsertEach pt acc fs).2.length = acc.length + fs.length := by
  induction fs generalizing pt acc with
  | nil => simp [dedupInsertEach]
  | cons f fs ih =>
    simp only [dedupInsertEach, ih]
    simp
    omega

theorem dedupStep_indices_lengths {α : Type} [DecidableEq α] (st : DedupSt α)
    (fs : List α) (j : ℕ) (hlen : fs.length = st.indices.length)
    (hall : ∀ l ∈ st.indices, l.length = j) :
    (dedupStep st fs).indices.length = st.indices.length ∧
    ∀ l ∈ (dedupStep st fs).indices, l.length = j + 1 := by
  unfold dedupStep
  split
  · rename_i hone
    match fs, hone with
    | f :: fs', _ =>
      constructor
      · simp
      · intro l hl
        simp only [List.mem_map] at hl
        obtain ⟨l', hl', rfl⟩ := hl
        simp [hall l' hl']
  · constructor
    · simp only [List.length_zipWith, dedupInsertEach_snd_length]
      simp at hlen ⊢
      omega
    · intro l hl
      rw [List.mem_iff_getElem] at hl
      obtain ⟨i, hi, rfl⟩ := hl
      rw [List.getElem_zipWith]
      have hi' : i < st.indices.length := by
        simp only [List.length_zipWith] at hi
        omega
      simp [hall _ (List.getElem_mem hi')]

theorem dedup_loop_lengths {α : Type} [DecidableEq α] [Inhabited α]
    (vs : List (List α)) (ps : List ℕ) (st : DedupSt α) (j : ℕ)
    (h1 : st.indices.length = vs.length) (h2 : ∀ l ∈ st.indices, l.length = j) :
    (ps.foldl (fun st i => dedupStep st (vs.map fun v => v.getD i default)) st).indices.length
      = vs.length ∧
    ∀ l ∈ (ps.foldl (fun st i => dedupStep st (vs.map fun v => v.getD i default)) st).indices,
      l.length = j + ps.length := by
  induction ps generalizing st j with
  | nil => simpa using ⟨h1, h2⟩
  | cons p ps ih =>
    have hs := dedupStep_indices_lengths st (vs.map fun v => v.getD p default) j
      (by simp [h1]) h2
    have := ih (dedupStep st (vs.map fun v => v.getD p default)) (j + 1)
      (hs.1.trans h1) hs.2
    simp only [List.foldl_cons]
    constructor
    · exact this.1
    · intro l hl
      have := this.2 l hl
      simp only [List.length_cons]
      omega

/-- Claim C7: for a variant set whose variants all have the same frame
count, `process_gachachacha_variants` appends exactly one pool index per
original frame position: every variant's output index list has exactly
that length (positions are never dropped or duplicated). -/
theorem dedup_preserves_frame_counts {α : Type} [DecidableEq α] [Inhabited α]
    (vs : List (List α)) (m : ℕ) (hm : ∀ v ∈ vs, v.length = m) :
    (process_gachachacha_variants vs).2.length = vs.length ∧
    ∀ l ∈ (process_gachachacha_variants vs).2, l.length = m := by
  unfold process_gachachacha_variants
  cases vs with
  | nil => simp
  | cons v vs' =>
    have hv : v.length = m := hm v (by simp)
    have h := dedup_loop_lengths (v :: vs') (List.range ((v :: vs').headD []).length)
      ⟨[], [], (v :: vs').map fun _ => []⟩ 0 (by simp) (by simp)
    simp only [List.headD_cons, List.length_range] at h ⊢
    refine ⟨h.1, fun l hl => ?_⟩
    have := h.2 l hl
    omega

/-- Witness for C7 at a concrete input. -/
theorem dedup_preserves_frame_counts_witness :
    (∀ v ∈ ([[1, 2], [1, 3]] : List (List ℕ)), v.length = 2) ∧
    ((process_gachachacha_variants ([[1, 2], [1, 3]] : List (List ℕ))).2.length = 2 ∧
     ∀ l ∈ (process_gachachacha_variants ([[1, 2], [1, 3]] : List (List ℕ))).2, l.length = 2) :=
  ⟨by decide, dedup_preserves_frame_counts [[1, 2], [1, 3]] 2 (by decide)⟩

/-- Counterexample to claim C3 as stated: two variants that are identical
at every index but contain a repeated frame within the sequence.  The
hash table pools the repeated content once, so the pool has 1 frame, not
2, and the index lists are `[0, 0]`, not `[0, 1]`. -/
theorem dedup_identical_variants_counterexample :
    (∀ v ∈ ([[0, 0], [0, 0]] : List (List ℕ)), v = [0, 0]) ∧
    (process_gachachacha_variants ([[0, 0], [0, 0]] : List (List ℕ))).1.length ≠ 2 ∧
    (process_gachachacha_variants ([[0, 0], [0, 0]] : List (List ℕ))).2 ≠ [[0, 1], [0, 1]] := by
  refine ⟨by decide, by decide, by decide⟩

theorem nodup_getElem_not_mem_take {α : Type} (fs : List α) (hnd : fs.Nodup)
    (j : ℕ) (hj : j < fs.length) : fs[j] ∉ fs.take j := by
  intro hmem
  rw [List.mem_iff_getElem] at hmem
  obtain ⟨i, hi, hieq⟩ := hmem
  have hi' : i < j := by
    simp only [List.length_take] at hi
    omega
  rw [List.getElem_take] at hieq
  have hinj := List.nodup_iff_injective_get.mp hnd
  have heq : (⟨i, by omega⟩ : Fin fs.length) = ⟨j, hj⟩ := by
    apply hinj
    simpa [List.get_eq_getElem] using hieq
  simp only [Fin.mk.injEq] at heq
  omega

theorem tableLookup_pyEnum_none {α : Type} [DecidableEq α] (l : List α) (a : α)
    (ha : a ∉ l) : tableLookup ((pyEnum l).map fun p => (p.2, p.1)) a = none := by
  unfold tableLookup
  rw [List.find?_eq_none.mpr]
  · rfl
  · intro p hp
    simp only [List.mem_map] at hp
    obtain ⟨q, hq, rfl⟩ := hp
    have hm := pyEnumFrom_fst_mem 0 l q hq
    simp only [decide_eq_true_eq]
    intro h
    exact ha (h ▸ hm)

theorem dedup_identical_invariant {α : Type} [DecidableEq α] [Inhabited α]
    (v₀ : List α) (vs : List (List α)) (fs : List α)
    (hall : ∀ v ∈ (v₀ :: vs), v = fs) (hnd : fs.Nodup) (j : ℕ) (hj : j ≤ fs.length) :
    (List.range j).foldl
      (fun st i => dedupStep st ((v₀ :: vs).map fun v => v.getD i default))
      ⟨[], [], (v₀ :: vs).map fun _ => []⟩ =
    (⟨fs.take j, (pyEnum (fs.take j)).map fun p => (p.2, p.1),
      (v₀ :: vs).map fun _ => List.range j⟩ : DedupSt α) := by
  induction j with
  | zero => simp [pyEnum, pyEnumFrom]
  | succ j ih =>
    have hjlt : j < fs.length := by omega
    rw [List.range_succ, List.foldl_append, ih (by omega)]
    simp only [List.foldl_cons, List.foldl_nil]
    have hframes : (v₀ :: vs).map (fun v => v.getD j default)
        = List.replicate (vs.length + 1) fs[j] := by
      have h1 : (v₀ :: vs).map (fun v => v.getD j default)
          = (v₀ :: vs).map (fun _ => fs[j]) :=
        List.map_congr_left fun v hv => by
          rw [hall v hv, List.getD_eq_getElem fs default hjlt]
      rw [h1, List.map_const']
      simp
    rw [hframes]
    unfold dedupStep
    rw [if_pos (by simp [frame_hash, List.map_id', dedup_replicate_succ])]
    rw [List.replicate_succ]
    simp only []
    unfold frame_hash poolInsert
    rw [tableLookup_pyEnum_none (fs.take j) fs[j]
      (nodup_getElem_not_mem_take fs hnd j hjlt)]
    simp only []
    have hlen : (fs.take j).length = j := by
      simp [List.length_take]
      omega
    have hpool : fs.take j ++ [fs[j]] = fs.take (j + 1) := by
      rw [← List.concat_eq_append]
      exact List.take_concat_get fs j hjlt
    have htable : ((pyEnum (fs.take j)).map fun p => (p.2, p.1)) ++ [(fs[j], (fs.take j).length)]
        = (pyEnum (fs.take (j + 1))).map fun p => (p.2, p.1) := by
      rw [← hpool]
      simp only [pyEnum]
      rw [pyEnumFrom_append_singleton, List.map_append, hlen]
      simp
    have hidx : ((v₀ :: vs).map fun _ => List.range j).map
        (fun l => l ++ [(fs.take j).length]) = (v₀ :: vs).map fun _ => List.range j ++ [j] := by
      rw [List.map_map]
      apply List.map_congr_left
      intro v _
      simp only [Function.comp_apply, hlen]
    rw [DedupSt.mk.injEq]
    exact ⟨hpool, htable, hidx⟩

/-- Amended claim C3: deduplicating `k ≥ 1` identical variants whose
common frame sequence has no repeated frame content yields a pool equal to
that sequence (hence of size equal to the frame count), and every
variant's index list is `[0, 1, ..., count - 1]`.  (Without the
no-repeats proviso the hash table also pools equal frames at different
indices, see the counterexample.) -/
theorem dedup_identical_nodup_variants {α : Type} [DecidableEq α] [Inhabited α]
    (vs : List (List α)) (fs : List α) (hne : vs ≠ [])
    (hall : ∀ v ∈ vs, v = fs) (hnd : fs.Nodup) :
    (process_gachachacha_variants vs).1 = fs ∧
    (process_gachachacha_variants vs).2 = vs.map fun _ => List.range fs.length := by
  obtain ⟨v₀, vs', rfl⟩ := List.exists_cons_of_ne_nil hne
  unfold process_gachachacha_variants
  have hv₀ : v₀.length = fs.length := by rw [hall v₀ (by simp)]
  simp only [List.headD_cons, hv₀]
  rw [dedup_identical_invariant v₀ vs' fs hall hnd fs.length le_rfl]
  simp [List.take_length]

/-- Witness for the amended C3 at a concrete input. -/
theorem dedup_identical_nodup_variants_witness :
    ((∀ v ∈ ([[10, 20], [10, 20]] : List (List ℕ)), v = [10, 20]) ∧
      ([10, 20] : List ℕ).Nodup) ∧
    (process_gachachacha_variants ([[10, 20], [10, 20]] : List (List ℕ))).1 = [10, 20] ∧
    (process_gachachacha_variants ([[10, 20], [10, 20]] : List (List ℕ))).2
      = ([[10, 20], [10, 20]] : List (List ℕ)).map fun _ => List.range ([10, 20] : List ℕ).length :=
  ⟨⟨by decide, by decide⟩,
    dedup_identical_nodup_variants [[10, 20], [10, 20]] [10, 20]
      (by decide) (by decide) (by decide)⟩

/-! ## C4 / C5: metadata emitter -/

/-- Claim C5: for every named entity, the emitted `switchIn` coordinate
list is exactly the reversal of the `switchOut` list: as lists,
`switchIn.frames = switchOut.frames.reverse`, and element `j` of
`switchIn` equals element `count - 1 - j` of `switchOut`. -/
theorem monEntry_switchIn_reverse_switchOut
    (frameRate mainStart mainCount switchStart switchCount : ℕ)
    (positions switchPositions : List (ℕ × ℕ)) :
    (monEntry frameRate mainStart mainCount switchStart switchCount positions
      switchPositions).switchIn.frames
      = (monEntry frameRate mainStart mainCount switchStart switchCount positions
        switchPositions).switchOut.frames.reverse ∧
    (monEntry frameRate mainStart mainCount switchStart switchCount positions
      switchPositions).switchOut.frames.length = switchCount ∧
    ∀ j, j < switchCount →
      (monEntry frameRate mainStart mainCount switchStart switchCount positions
        switchPositions).switchIn.frames[j]?
      = (monEntry frameRate mainStart mainCount switchStart switchCount positions
          switchPositions).switchOut.frames[switchCount - 1 - j]? := by
  have hlen : (monEntry frameRate mainStart mainCount switchStart switchCount positions
      switchPositions).switchOut.frames.length = switchCount := by
    simp [monEntry]
  refine ⟨rfl, hlen, fun j hj => ?_⟩
  show ((monEntry frameRate mainStart mainCount switchStart switchCount positions
    switchPositions).switchOut.frames.reverse)[j]? = _
  rw [List.getElem?_reverse (by rw [hlen]; exact hj), hlen]

/-- Witness for C5 at a concrete input. -/
theorem monEntry_switchIn_reverse_switchOut_witness :
    (monEntry 100 0 1 0 2 [(0, 0)] [(0, 0), (96, 0)]).switchIn.frames
      = (monEntry 100 0 1 0 2 [(0, 0)] [(0, 0), (96, 0)]).switchOut.frames.reverse ∧
    (monEntry 100 0 1 0 2 [(0, 0)] [(0, 0), (96, 0)]).switchOut.frames.length = 2 ∧
    ∀ j, j < 2 →
      (monEntry 100 0 1 0 2 [(0, 0)] [(0, 0), (96, 0)]).switchIn.frames[j]?
      = (monEntry 100 0 1 0 2 [(0, 0)] [(0, 0), (96, 0)]).switchOut.frames[2 - 1 - j]? :=
  monEntry_switchIn_reverse_switchOut 100 0 1 0 2 [(0, 0)] [(0, 0), (96, 0)]

/-- Counterexample to claim C4 as stated: the mon-spritesheet pipeline
(`create_spritesheets`) writes its metadata document without reading the
previously emitted one — `create_spritesheets_metadata` has no
previous-document input at all — so a previously persisted `msPerFrame`
of 55 for `"a.gif"` is not retained: the emitted value is the recomputed
frame rate 100, not 55. -/
theorem create_spritesheets_ignores_existing :
    ((create_spritesheets_metadata [⟨"a.gif", 100, 0, 1, 0, 2⟩] [(0, 0)]
        [(0, 0), (96, 0)]).find? (fun p => p.1 = "a.gif")).map (fun p => p.2.msPerFrame)
      = some 100 ∧ (100 : ℕ) ≠ 55 := by
  exact ⟨by simp [create_spritesheets_metadata, monEntry], by decide⟩

/-- Amended claim C4: the duration merge holds for the attack-spritesheet
document: `finalize_metadata` looks every name up in the previously
emitted document and substitutes the persisted `msPerFrame` for the
recomputed default, for every matching name.  (The mon-spritesheet
pipeline regenerates `msPerFrame` from the GIF instead, see the
counterexample.) -/
theorem finalize_metadata_preserves_ms (sm : List (String × SizeMetaEntry × (ℕ × ℕ)))
    (positions : List (ℕ × ℕ)) (ex : List (String × ℕ)) (i : ℕ) (hi : i < sm.length)
    (hilen : i < (finalize_metadata sm positions ex).length) (v : ℕ)
    (hv : msLookup ex ((sm.get ⟨i, hi⟩).1) = some v) :
    ((finalize_metadata sm positions ex).get ⟨i, hilen⟩).1 = (sm.get ⟨i, hi⟩).1 ∧
    ((finalize_metadata sm positions ex).get ⟨i, hilen⟩).2.msPerFrame = v := by
  simp only [List.get_eq_getElem] at hv ⊢
  simp only [finalize_metadata, List.getElem_map]
  rcases hval : sm[i] with ⟨name, entry, sz⟩
  rw [hval] at hv
  simp only at hv
  cases entry <;> simp [hv]

/-- Witness for the amended C4 at a concrete input. -/
theorem finalize_metadata_preserves_ms_witness :
    msLookup [("a", 55)]
      ((([("a", SizeMetaEntry.regular 0 1, (96, 96))] :
        List (String × SizeMetaEntry × (ℕ × ℕ))).get ⟨0, by simp⟩).1) = some 55 ∧
    (((finalize_metadata [("a", SizeMetaEntry.regular 0 1, (96, 96))] [(0, 0)]
        [("a", 55)]).get ⟨0, by simp [finalize_metadata]⟩).1
      = ((([("a", SizeMetaEntry.regular 0 1, (96, 96))] :
        List (String × SizeMetaEntry × (ℕ × ℕ))).get ⟨0, by simp⟩).1) ∧
     ((finalize_metadata [("a", SizeMetaEntry.regular 0 1, (96, 96))] [(0, 0)]
        [("a", 55)]).get ⟨0, by simp [finalize_metadata]⟩).2.msPerFrame = 55) :=
  ⟨by simp [msLookup], finalize_metadata_preserves_ms _ _ _ 0 (by simp)
    (by simp [finalize_metadata]) 55 (by simp [msLookup])⟩

/-! ## C2 / C8 / C9 / C10: morph synthesizer -/

theorem pyInt_intCast (n : ℤ) : pyInt (n : ℚ) = n := by
  unfold pyInt
  split
  · exact Int.floor_intCast n
  · exact Int.ceil_intCast n

theorem pyInt_natCast (n : ℕ) : pyInt (n : ℚ) = n := by
  have := pyInt_intCast (n : ℤ)
  simpa using this

theorem pyRound_intCast (n : ℤ) : pyRound (n : ℚ) = n := by
  unfold pyRound
  rw [Int.floor_intCast]
  have h : (n : ℚ) - n = 0 := by ring
  rw [h]
  norm_num

theorem pyRound_natCast (n : ℕ) : pyRound (n : ℚ) = n := by
  have := pyRound_intCast (n : ℤ)
  simpa using this

theorem morphBezier_one (s c e : ℚ) : morphBezier 1 s c e = e := by
  unfold morphBezier
  ring

theorem morphBezier_zero (s c e : ℚ) : morphBezier 0 s c e = s := by
  unfold morphBezier
  ring

theorem radialDeform_deform_zero (S : SqrtO) (sin2 cx cy px py : ℚ) :
    radialDeform S 0 sin2 cx cy px py = (px, py) := by
  unfold radialDeform
  simp only []
  split
  · rw [Prod.mk.injEq]
    constructor <;> ring
  · rfl

theorem pixelPos_one (S : SqrtO) (cx cy : ℤ) (sin2 : ℚ) (pd : PixelDatum) :
    pixelPos S cx cy 1 0 sin2 pd = (pd.tx, pd.ty) := by
  simp only [pixelPos, morphBezier_one, radialDeform_deform_zero, pyRound_intCast]

theorem pixelPos_zero (S : SqrtO) (cx cy : ℤ) (sin2 : ℚ) (pd : PixelDatum) :
    pixelPos S cx cy 0 0 sin2 pd = ((pd.sx : ℤ), (pd.sy : ℤ)) := by
  simp only [pixelPos, morphBezier_zero, radialDeform_deform_zero, pyRound_natCast]

theorem mem_filterMap_pyEnum {α β : Type} (l : List α) (g : ℕ × α → Option β) (b : β) :
    b ∈ (pyEnum l).filterMap g ↔
      ∃ i, ∃ h : i < l.length, g (i, l.get ⟨i, h⟩) = some b := by
  rw [List.mem_filterMap]
  constructor
  · rintro ⟨p, hp, hg⟩
    obtain ⟨⟨i, hi⟩, rfl⟩ := List.mem_iff_get.mp hp
    have hi' : i < l.length := by
      simpa [pyEnum, pyEnumFrom_length] using hi
    refine ⟨i, hi', ?_⟩
    simp only [pyEnum] at hg
    rw [pyEnumFrom_get] at hg
    simpa using hg
  · rintro ⟨i, hi, hg⟩
    refine ⟨(i, l.get ⟨i, hi⟩), ?_, hg⟩
    simp only [pyEnum]
    rw [List.mem_iff_get]
    refine ⟨⟨i, by simpa [pyEnumFrom_length] using hi⟩, ?_⟩
    rw [pyEnumFrom_get]
    simp

theorem pixelData_length (O : RandO) (cx cy : ℤ) (tf : ℕ)
    (diamond whites : List (ℕ × ℕ)) :
    (pixelData O cx cy tf diamond whites).length = whites.length := by
  simp [pixelData, pyEnum, pyEnumFrom_length]

theorem pixelData_get (O : RandO) (cx cy : ℤ) (tf : ℕ) (diamond whites : List (ℕ × ℕ))
    (i : ℕ) (hp : i < (pixelData O cx cy tf diamond whites).length)
    (hw : i < whites.length) :
    (pixelData O cx cy tf diamond whites).get ⟨i, hp⟩ =
      mkPixelDatum O cx cy tf diamond (i, whites.get ⟨i, hw⟩) := by
  unfold pixelData
  rw [List.get_eq_getElem, List.getElem_map]
  congr 1
  have hi : i < (pyEnum whites).length := by
    simpa [pyEnum, pyEnumFrom_length] using hw
  rw [← List.get_eq_getElem (pyEnum whites) ⟨i, hi⟩]
  simp only [pyEnum]
  rw [pyEnumFrom_get]
  simp

theorem mkPixelDatum_survives (O : RandO) (cx cy : ℤ) (tf : ℕ)
    (diamond : List (ℕ × ℕ)) (ip : ℕ × (ℕ × ℕ)) :
    (mkPixelDatum O cx cy tf diamond ip).survives = decide (ip.1 < tf) := rfl

theorem mkPixelDatum_start (O : RandO) (cx cy : ℤ) (tf : ℕ)
    (diamond : List (ℕ × ℕ)) (ip : ℕ × (ℕ × ℕ)) :
    (mkPixelDatum O cx cy tf diamond ip).sx = ip.2.1 ∧
    (mkPixelDatum O cx cy tf diamond ip).sy = ip.2.2 := ⟨rfl, rfl⟩

theorem mkPixelDatum_target_lt (O : RandO) (cx cy : ℤ) (tf : ℕ)
    (diamond : List (ℕ × ℕ)) (ip : ℕ × (ℕ × ℕ)) (hlt : ip.1 < tf) :
    (mkPixelDatum O cx cy tf diamond ip).tx = ((diamond.getD ip.1 (0, 0)).1 : ℤ) ∧
    (mkPixelDatum O cx cy tf diamond ip).ty = ((diamond.getD ip.1 (0, 0)).2 : ℤ) := by
  unfold mkPixelDatum
  simp [hlt]

theorem mem_whitePixels (w h : ℕ) (alpha : ℕ → ℕ → ℕ) (p : ℕ × ℕ) :
    p ∈ whitePixels w h alpha ↔ p.1 < w ∧ p.2 < h ∧ 0 < alpha p.1 p.2 := by
  rcases p with ⟨x, y⟩
  simp only [whitePixels, List.mem_flatMap, List.mem_filterMap, List.mem_range]
  constructor
  · rintro ⟨y', hy', x', hx', hif⟩
    split at hif
    · rename_i hcond
      obtain ⟨rfl, rfl⟩ := Prod.mk.injEq .. ▸ Option.some.inj hif
      exact ⟨hx', hy', hcond⟩
    · exact absurd hif (by simp)
  · rintro ⟨hx, hy, hα⟩
    exact ⟨y, hy, x, hx, by rw [if_pos hα]⟩

theorem mem_diamondPixels (w h : ℕ) (cx cy : ℤ) (p : ℕ × ℕ) :
    p ∈ diamondPixels w h cx cy ↔
      p.1 < w ∧ p.2 < h ∧
      |(p.1 : ℚ) - (cx : ℚ)| / 4 + |(p.2 : ℚ) - (cy : ℚ)| / 7 ≤ 1 := by
  rcases p with ⟨x, y⟩
  simp only [diamondPixels, List.mem_flatMap, List.mem_filterMap, List.mem_range]
  constructor
  · rintro ⟨y', hy', x', hx', hif⟩
    split at hif
    · rename_i hcond
      obtain ⟨rfl, rfl⟩ := Prod.mk.injEq .. ▸ Option.some.inj hif
      exact ⟨hx', hy', hcond⟩
    · exact absurd hif (by simp)
  · rintro ⟨hx, hy, hcond⟩
    exact ⟨y, hy, x, hx, by rw [if_pos hcond]⟩

theorem morphProgress_zero (N : ℕ) : morphProgress N 0 = 0 := by
  simp [morphProgress]

theorem morphProgress_last (N : ℕ) (hN : 2 ≤ N) : morphProgress N (N - 1) = 1 := by
  unfold morphProgress
  rw [Nat.cast_sub (by omega : 1 ≤ N)]
  push_cast
  apply div_self
  have h2 : (2 : ℚ) ≤ (N : ℚ) := by exact_mod_cast hN
  linarith

theorem visibleCount_zero (tS tF : ℕ) :
    visibleCount tS tF 0 = max (tS : ℤ) (tF : ℤ) := by
  unfold visibleCount
  rw [show ((tS : ℚ) * (1 - 0 * (2 / 5)) + (tF : ℚ) * 0 * (2 / 5)) = (tS : ℚ) by ring]
  rw [pyInt_natCast]

theorem morphFrameAt_drawn (T : TrigO) (S : SqrtO) (O : RandO) (alpha : ℕ → ℕ → ℕ)
    (w h N f : ℕ) (back : Bool) :
    (morphFrameAt T S O alpha w h N f back).drawn
      = (pyEnum (pixelData O (morphCenter w h back).1 (morphCenter w h back).2
          (diamondPixels w h (morphCenter w h back).1 (morphCenter w h back).2).length
          (diamondPixels w h (morphCenter w h back).1 (morphCenter w h back).2)
          (whitePixels w h alpha))).filterMap
        (morphDraw S w h (morphCenter w h back).1 (morphCenter w h back).2
          (1 / 2 * (1 - T.cosPi (morphProgress N f))) (T.sinPi (morphProgress N f) * 3)
          (T.sinPi (2 * morphProgress N f))
          (visibleCount (whitePixels w h alpha).length
            (diamondPixels w h (morphCenter w h back).1 (morphCenter w h back).2).length
            (morphProgress N f))) := rfl

theorem survivorDrawnAt_eq (T : TrigO) (S : SqrtO) (O : RandO) (alpha : ℕ → ℕ → ℕ)
    (w h N f : ℕ) (back : Bool) :
    survivorDrawnAt T S O alpha w h N f back
      = (pyEnum (pixelData O (morphCenter w h back).1 (morphCenter w h back).2
          (diamondPixels w h (morphCenter w h back).1 (morphCenter w h back).2).length
          (diamondPixels w h (morphCenter w h back).1 (morphCenter w h back).2)
          (whitePixels w h alpha))).filterMap
        (survivorDraw S w h (morphCenter w h back).1 (morphCenter w h back).2
          (1 / 2 * (1 - T.cosPi (morphProgress N f))) (T.sinPi (morphProgress N f) * 3)
          (T.sinPi (2 * morphProgress N f))) := rfl

/-- Claim C8: the radial deformation's division by the distance to the
center is guarded by `dist > 0`: the checked variants (which fail on a
zero divisor) always succeed and agree with the unchecked computation,
for every pixel datum, eased progress and frame parameters; and when the
interpolated position coincides with the center (distance zero) the
deformation is skipped entirely, returning the position unchanged. -/
theorem radial_deform_division_safe :
    (∀ (S : SqrtO) (deform sin2 cx cy px py : ℚ),
      radialDeformChecked S deform sin2 cx cy px py
        = some (radialDeform S deform sin2 cx cy px py)) ∧
    (∀ (S : SqrtO) (cx cy : ℤ) (t deform sin2 : ℚ) (pd : PixelDatum),
      pixelPosChecked S cx cy t deform sin2 pd
        = some (pixelPos S cx cy t deform sin2 pd)) ∧
    (∀ (S : SqrtO) (deform sin2 px py : ℚ), S.sqrtQ 0 = 0 →
      radialDeform S deform sin2 px py px py = (px, py)) := by
  have h1 : ∀ (S : SqrtO) (deform sin2 cx cy px py : ℚ),
      radialDeformChecked S deform sin2 cx cy px py
        = some (radialDeform S deform sin2 cx cy px py) := by
    intro S deform sin2 cx cy px py
    unfold radialDeformChecked radialDeform checkedDiv
    simp only []
    split_ifs with hd h0
    · rw [h0] at hd
      exact absurd hd (lt_irrefl 0)
    · simp
    · rfl
  refine ⟨h1, ?_, ?_⟩
  · intro S cx cy t deform sin2 pd
    unfold pixelPosChecked
    simp only []
    rw [h1]
    simp [pixelPos]
  · intro S deform sin2 px py hsq
    unfold radialDeform
    simp only []
    rw [show (px - px) ^ 2 + (py - py) ^ 2 = 0 by ring, hsq]
    simp

/-- Witness for C8 at concrete inputs. -/
theorem radial_deform_division_safe_witness :
    radialDeformChecked sqrtW 3 5 0 0 1 1 = some (radialDeform sqrtW 3 5 0 0 1 1) ∧
    pixelPosChecked sqrtW 0 0 1 3 5 ⟨0, 0, 1, 1, 0, 0, true⟩
      = some (pixelPos sqrtW 0 0 1 3 5 ⟨0, 0, 1, 1, 0, 0, true⟩) ∧
    (sqrtW.sqrtQ 0 = 0 ∧ radialDeform sqrtW 3 5 2 2 2 2 = ((2 : ℚ), (2 : ℚ))) :=
  ⟨radial_deform_division_safe.1 sqrtW 3 5 0 0 1 1,
   radial_deform_division_safe.2.1 sqrtW 0 0 1 3 5 ⟨0, 0, 1, 1, 0, 0, true⟩,
   by norm_num [sqrtW],
   radial_deform_division_safe.2.2 sqrtW 3 5 2 2 (by norm_num [sqrtW])⟩

/-- Claim C10: for a fully transparent input silhouette the synthesizer
returns exactly `N` frames, each of the input's dimensions and each with
an empty drawn set (the empty start set yields an empty `pixel_data` list
and the draw loop draws nothing). -/
theorem morph_empty_silhouette (T : TrigO) (S : SqrtO) (O : RandO)
    (alpha : ℕ → ℕ → ℕ) (w h N : ℕ) (back : Bool)
    (hz : ∀ x y, alpha x y = 0) (hN : 2 ≤ N) :
    (create_morphing_animation T S O alpha w h N back).length = N ∧
    ∀ fr ∈ create_morphing_animation T S O alpha w h N back,
      fr.width = w ∧ fr.height = h ∧ fr.drawn = [] := by
  have hwhite : whitePixels w h alpha = [] := by
    rw [List.eq_nil_iff_forall_not_mem]
    intro p hp
    rw [mem_whitePixels] at hp
    have := hz p.1 p.2
    omega
  constructor
  · simp [create_morphing_animation]
  · intro fr hfr
    simp only [create_morphing_animation, List.mem_map, List.mem_range] at hfr
    obtain ⟨f, hf, rfl⟩ := hfr
    refine ⟨rfl, rfl, ?_⟩
    simp [morphFrame, hwhite, pixelData, pyEnum, pyEnumFrom]

/-- Witness for C10 at a concrete input. -/
theorem morph_empty_silhouette_witness :
    ((∀ x y, alphaZero x y = 0) ∧ 2 ≤ 2) ∧
    ((create_morphing_animation trigW sqrtW randW alphaZero 2 2 2 false).length = 2 ∧
     ∀ fr ∈ create_morphing_animation trigW sqrtW randW alphaZero 2 2 2 false,
       fr.width = 2 ∧ fr.height = 2 ∧ fr.drawn = []) :=
  ⟨⟨fun _ _ => rfl, by decide⟩,
   morph_empty_silhouette trigW sqrtW randW alphaZero 2 2 2 false (fun _ _ => rfl) (by decide)⟩

/-- Claim C9: at frame index 0 the eased progress is 0 and the
deformation strength is 0, so the first frame's drawn-pixel set is
exactly the silhouette's opaque pixel set. -/
theorem morph_first_frame_eq_silhouette (T : TrigO) (S : SqrtO) (O : RandO)
    (alpha : ℕ → ℕ → ℕ) (w h N : ℕ) (back : Bool) (hN : 2 ≤ N)
    (hcos : T.cosPi 0 = 1) (hsin : T.sinPi 0 = 0)
    (hne : whitePixels w h alpha ≠ []) :
    (create_morphing_animation T S O alpha w h N back)[0]?
      = some (morphFrameAt T S O alpha w h N 0 back) ∧
    ∀ p : ℤ × ℤ, p ∈ (morphFrameAt T S O alpha w h N 0 back).drawn ↔
      ∃ x y : ℕ, x < w ∧ y < h ∧ 0 < alpha x y ∧ p = ((x : ℤ), (y : ℤ)) := by
  constructor
  · have h0 : 0 < N := by omega
    simp [create_morphing_animation, morphFrameAt, List.getElem?_map,
      List.getElem?_range, h0]
  · intro p
    rw [morphFrameAt_drawn, morphProgress_zero, hcos, hsin, visibleCount_zero]
    have e1 : (1 : ℚ) / 2 * (1 - 1) = 0 := by norm_num
    have e2 : (0 : ℚ) * 3 = 0 := by norm_num
    rw [e1, e2, mem_filterMap_pyEnum]
    constructor
    · rintro ⟨i, hi, hg⟩
      have hiw : i < (whitePixels w h alpha).length := by
        rw [pixelData_length] at hi
        exact hi
      rw [pixelData_get _ _ _ _ _ _ _ hi hiw] at hg
      unfold morphDraw at hg
      simp only [pixelPos_zero] at hg
      split at hg
      · have hp := Option.some.inj hg
        refine ⟨((whitePixels w h alpha).get ⟨i, hiw⟩).1,
          ((whitePixels w h alpha).get ⟨i, hiw⟩).2, ?_, ?_, ?_, ?_⟩
        · exact ((mem_whitePixels w h alpha _).mp (List.get_mem _ _ _)).1
        · exact ((mem_whitePixels w h alpha _).mp (List.get_mem _ _ _)).2.1
        · exact ((mem_whitePixels w h alpha _).mp (List.get_mem _ _ _)).2.2
        · rw [← hp]
          rfl
      · exact absurd hg (by simp)
    · rintro ⟨x, y, hx, hy, hα, rfl⟩
      have hm : (x, y) ∈ whitePixels w h alpha :=
        (mem_whitePixels w h alpha (x, y)).mpr ⟨hx, hy, hα⟩
      obtain ⟨⟨i, hiw⟩, hget⟩ := List.mem_iff_get.mp hm
      refine ⟨i, by rw [pixelData_length]; exact hiw, ?_⟩
      rw [pixelData_get _ _ _ _ _ _ _ (by rw [pixelData_length]; exact hiw) hiw]
      unfold morphDraw
      simp only [pixelPos_zero]
      rw [if_pos]
      · rw [hget]
        rfl
      · rw [Bool.and_eq_true]
        constructor
        · rw [Bool.or_eq_true]
          right
          rw [decide_eq_true_eq]
          calc (i : ℤ) < ((whitePixels w h alpha).length : ℤ) := by exact_mod_cast hiw
            _ ≤ max ((whitePixels w h alpha).length : ℤ)
                ((diamondPixels w h (morphCenter w h back).1 (morphCenter w h back).2).length : ℤ) :=
              le_max_left _ _
        · rw [hget]
          simp only [Bool.and_eq_true, decide_eq_true_eq]
          refine ⟨⟨⟨Int.natCast_nonneg x, ?_⟩, Int.natCast_nonneg y⟩, ?_⟩
          · exact_mod_cast hx
          · exact_mod_cast hy

theorem survivor_mem_frame (T : TrigO) (S : SqrtO) (O : RandO) (alpha : ℕ → ℕ → ℕ)
    (w h N f : ℕ) (back : Bool) (p : ℤ × ℤ)
    (hp : p ∈ survivorDrawnAt T S O alpha w h N f back) :
    p ∈ (morphFrameAt T S O alpha w h N f back).drawn := by
  rw [survivorDrawnAt_eq, mem_filterMap_pyEnum] at hp
  rw [morphFrameAt_drawn, mem_filterMap_pyEnum]
  obtain ⟨i, hi, hg⟩ := hp
  refine ⟨i, hi, ?_⟩
  unfold survivorDraw at hg
  unfold morphDraw
  simp only [] at hg ⊢
  split at hg
  · rename_i hcond
    rw [Bool.and_eq_true] at hcond
    rw [if_pos]
    · exact hg
    · rw [Bool.and_eq_true]
      refine ⟨?_, hcond.2⟩
      rw [Bool.or_eq_true]
      exact Or.inl hcond.1
  · exact absurd hg (by simp)

theorem survivor_last_mem (T : TrigO) (S : SqrtO) (O : RandO) (alpha : ℕ → ℕ → ℕ)
    (w h N : ℕ) (back : Bool) (hN : 2 ≤ N)
    (hcos : T.cosPi 1 = -1) (hsin : T.sinPi 1 = 0) (p : ℤ × ℤ) :
    p ∈ survivorDrawnAt T S O alpha w h N (N - 1) back ↔
      ∃ i x y, i < (whitePixels w h alpha).length ∧
        (diamondPixels w h (morphCenter w h back).1 (morphCenter w h back).2)[i]?
          = some (x, y) ∧
        p = ((x : ℤ), (y : ℤ)) := by
  rw [survivorDrawnAt_eq, morphProgress_last N hN, hcos, hsin]
  have e1 : (1 : ℚ) / 2 * (1 - -1) = 1 := by norm_num
  have e2 : (0 : ℚ) * 3 = 0 := by norm_num
  rw [e1, e2, mem_filterMap_pyEnum]
  constructor
  · rintro ⟨i, hi, hg⟩
    have hiw : i < (whitePixels w h alpha).length := by
      rw [pixelData_length] at hi
      exact hi
    rw [pixelData_get _ _ _ _ _ _ _ hi hiw] at hg
    unfold survivorDraw at hg
    simp only [pixelPos_one] at hg
    split at hg
    · rename_i hcond
      rw [Bool.and_eq_true] at hcond
      have hid : i < (diamondPixels w h (morphCenter w h back).1
          (morphCenter w h back).2).length := by
        have := hcond.1
        rw [mkPixelDatum_survives, decide_eq_true_eq] at this
        exact this
      obtain ⟨htx, hty⟩ := mkPixelDatum_target_lt O (morphCenter w h back).1
        (morphCenter w h back).2 _ _ (i, (whitePixels w h alpha).get ⟨i, hiw⟩) hid
      refine ⟨i, ((diamondPixels w h (morphCenter w h back).1
          (morphCenter w h back).2).get ⟨i, hid⟩).1,
        ((diamondPixels w h (morphCenter w h back).1
          (morphCenter w h back).2).get ⟨i, hid⟩).2, hiw, ?_, ?_⟩
      · rw [List.get_eq_getElem, List.getElem?_eq_getElem hid]
      · rw [← Option.some.inj hg, htx, hty,
          List.getD_eq_getElem _ _ hid, List.get_eq_getElem]
    · exact absurd hg (by simp)
  · rintro ⟨i, x, y, hiw, hix, rfl⟩
    have hid : i < (diamondPixels w h (morphCenter w h back).1
        (morphCenter w h back).2).length := by
      by_contra hcon
      rw [List.getElem?_eq_none (by omega)] at hix
      exact absurd hix (by simp)
    have hgetxy : (diamondPixels w h (morphCenter w h back).1
        (morphCenter w h back).2)[i] = (x, y) := by
      have := List.getElem?_eq_getElem hid
      rw [hix] at this
      exact (Option.some.inj this).symm
    refine ⟨i, by rw [pixelData_length]; exact hiw, ?_⟩
    rw [pixelData_get _ _ _ _ _ _ _ (by rw [pixelData_length]; exact hiw) hiw]
    unfold survivorDraw
    simp only [pixelPos_one]
    obtain ⟨htx, hty⟩ := mkPixelDatum_target_lt O (morphCenter w h back).1
      (morphCenter w h back).2 _ _ (i, (whitePixels w h alpha).get ⟨i, hiw⟩) hid
    have hmem : (x, y) ∈ diamondPixels w h (morphCenter w h back).1
        (morphCenter w h back).2 := by
      rw [← hgetxy]
      exact List.getElem_mem hid
    rw [mem_diamondPixels] at hmem
    have hgd : (diamondPixels w h (morphCenter w h back).1
        (morphCenter w h back).2).getD i (0, 0) = (x, y) := by
      rw [List.getD_eq_getElem _ _ hid, hgetxy]
    rw [if_pos]
    · rw [htx, hty, hgd]
    · rw [Bool.and_eq_true]
      constructor
      · rw [mkPixelDatum_survives, decide_eq_true_eq]
        exact hid
      · rw [htx, hty, hgd]
        simp only [Bool.and_eq_true, decide_eq_true_eq]
        refine ⟨⟨⟨Int.natCast_nonneg x, ?_⟩, Int.natCast_nonneg y⟩, ?_⟩
        · exact_mod_cast hmem.1
        · exact_mod_cast hmem.2.1

/-- Amended claim C2: for the last frame of the morph, the drawn-pixel
set restricted to pixels flagged `survives` equals the target diamond's
member set — the in-canvas coordinates satisfying
`|x - cx| / 4 + |y - cy| / 7 ≤ 1` — provided the silhouette has at least
as many opaque pixels as the diamond has members (otherwise only the
first `|start set|` diamond pixels are reached, see the counterexample);
and every survivor-drawn pixel is indeed drawn in the last frame. -/
theorem morph_last_frame_survivors (T : TrigO) (S : SqrtO) (O : RandO)
    (alpha : ℕ → ℕ → ℕ) (w h N : ℕ) (back : Bool) (hN : 2 ≤ N)
    (hcos : T.cosPi 1 = -1) (hsin : T.sinPi 1 = 0)
    (hF : (diamondPixels w h (morphCenter w h back).1 (morphCenter w h back).2).length
          ≤ (whitePixels w h alpha).length) :
    (∀ p : ℤ × ℤ, p ∈ survivorDrawnAt T S O alpha w h N (N - 1) back ↔
      ∃ x y : ℕ, x < w ∧ y < h ∧
        |(x : ℚ) - ((morphCenter w h back).1 : ℚ)| / 4 +
          |(y : ℚ) - ((morphCenter w h back).2 : ℚ)| / 7 ≤ 1 ∧
        p = ((x : ℤ), (y : ℤ))) ∧
    ∀ p ∈ survivorDrawnAt T S O alpha w h N (N - 1) back,
      p ∈ (morphFrameAt T S O alpha w h N (N - 1) back).drawn := by
  refine ⟨fun p => ?_, fun p hp => survivor_mem_frame T S O alpha w h N (N - 1) back p hp⟩
  rw [survivor_last_mem T S O alpha w h N back hN hcos hsin p]
  constructor
  · rintro ⟨i, x, y, hiw, hix, rfl⟩
    have h1 : i < (diamondPixels w h (morphCenter w h back).1
        (morphCenter w h back).2).length := by
      by_contra hcon
      rw [List.getElem?_eq_none (by omega)] at hix
      exact absurd hix (by simp)
    have h2 := List.getElem?_eq_getElem h1
    rw [hix] at h2
    have h3 : (diamondPixels w h (morphCenter w h back).1
        (morphCenter w h back).2)[i] = (x, y) := (Option.some.inj h2).symm
    have hmem : (x, y) ∈ diamondPixels w h (morphCenter w h back).1
        (morphCenter w h back).2 := by
      rw [← h3]
      exact List.getElem_mem h1
    rw [mem_diamondPixels] at hmem
    exact ⟨x, y, hmem.1, hmem.2.1, hmem.2.2, rfl⟩
  · rintro ⟨x, y, hx, hy, hcond, rfl⟩
    have hmem : (x, y) ∈ diamondPixels w h (morphCenter w h back).1
        (morphCenter w h back).2 :=
      (mem_diamondPixels _ _ _ _ _).mpr ⟨hx, hy, hcond⟩
    rw [List.mem_iff_getElem] at hmem
    obtain ⟨i, hi, hieq⟩ := hmem
    refine ⟨i, x, y, lt_of_lt_of_le hi hF, ?_, rfl⟩
    rw [List.getElem?_eq_getElem hi, hieq]

/-- Counterexample to claim C2 as stated: a non-empty silhouette with a
single opaque pixel on a 3×3 canvas has fewer start pixels (1) than the
target diamond has members (9), so the last frame's survivor-restricted
drawn set misses the diamond member (1, 0): only the pixels paired with a
start pixel are reached. -/
theorem morph_last_frame_counterexample :
    whitePixels 3 3 alphaSingle ≠ [] ∧
    trigW.cosPi 1 = -1 ∧ trigW.sinPi 1 = 0 ∧
    (1 : ℕ) < 3 ∧ (0 : ℕ) < 3 ∧
    |(1 : ℚ) - ((morphCenter 3 3 false).1 : ℚ)| / 4 +
      |(0 : ℚ) - ((morphCenter 3 3 false).2 : ℚ)| / 7 ≤ 1 ∧
    ((1 : ℤ), (0 : ℤ)) ∉ survivorDrawnAt trigW sqrtW randW alphaSingle 3 3 2 (2 - 1) false := by
  have hc : morphCenter 3 3 false = (1, 1) := by decide
  refine ⟨by decide, by norm_num [trigW], rfl, by decide, by decide, ?_, ?_⟩
  · rw [hc]
    norm_num
  · rw [survivor_last_mem trigW sqrtW randW alphaSingle 3 3 2 false (by norm_num)
      (by norm_num [trigW]) rfl ((1 : ℤ), (0 : ℤ))]
    rintro ⟨i, x, y, hiw, hix, heq⟩
    have hlen : (whitePixels 3 3 alphaSingle).length = 1 := by decide
    rw [hlen] at hiw
    have hi0 : i = 0 := by omega
    subst hi0
    have hd : diamondPixels 3 3 (morphCenter 3 3 false).1 (morphCenter 3 3 false).2
        = [(0, 0), (1, 0), (2, 0), (0, 1), (1, 1), (2, 1), (0, 2), (1, 2), (2, 2)] := by
      rw [hc]
      norm_num [diamondPixels, List.range_succ, List.flatMap_cons, List.filterMap_cons,
        abs_of_nonneg, abs_of_nonpos]
    rw [hd] at hix
    simp only [List.getElem?_cons_zero, Option.some.injEq, Prod.mk.injEq] at hix
    obtain ⟨rfl, rfl⟩ := hix.symm
    simp at heq

/-- Witness for the amended C2 at a concrete input. -/
theorem morph_last_frame_survivors_witness :
    (2 ≤ 2 ∧ trigW.cosPi 1 = -1 ∧ trigW.sinPi 1 = 0 ∧
     (diamondPixels 2 2 (morphCenter 2 2 false).1 (morphCenter 2 2 false).2).length
       ≤ (whitePixels 2 2 alphaOne).length) ∧
    ((∀ p : ℤ × ℤ, p ∈ survivorDrawnAt trigW sqrtW randW alphaOne 2 2 2 (2 - 1) false ↔
      ∃ x y : ℕ, x < 2 ∧ y < 2 ∧
        |(x : ℚ) - ((morphCenter 2 2 false).1 : ℚ)| / 4 +
          |(y : ℚ) - ((morphCenter 2 2 false).2 : ℚ)| / 7 ≤ 1 ∧
        p = ((x : ℤ), (y : ℤ))) ∧
     ∀ p ∈ survivorDrawnAt trigW sqrtW randW alphaOne 2 2 2 (2 - 1) false,
       p ∈ (morphFrameAt trigW sqrtW randW alphaOne 2 2 2 (2 - 1) false).drawn) :=
  have hF : (diamondPixels 2 2 (morphCenter 2 2 false).1 (morphCenter 2 2 false).2).length
      ≤ (whitePixels 2 2 alphaOne).length := by
    have hc : morphCenter 2 2 false = (1, 1) := by decide
    rw [hc]
    have hd : diamondPixels 2 2 ((1 : ℤ), (1 : ℤ)).1 ((1 : ℤ), (1 : ℤ)).2
        = [(0, 0), (1, 0), (0, 1), (1, 1)] := by
      norm_num [diamondPixels, List.range_succ, List.flatMap_cons, List.filterMap_cons,
        abs_of_nonneg, abs_of_nonpos]
    rw [hd]
    decide
  ⟨⟨by decide, by norm_num [trigW], rfl, hF⟩,
   morph_last_frame_survivors trigW sqrtW randW alphaOne 2 2 2 false (by decide)
     (by norm_num [trigW]) rfl hF⟩

/-- Witness for C9 at a concrete input. -/
theorem morph_first_frame_eq_silhouette_witness :
    (2 ≤ 2 ∧ trigW.cosPi 0 = 1 ∧ trigW.sinPi 0 = 0 ∧ whitePixels 2 2 alphaOne ≠ []) ∧
    ((create_morphing_animation trigW sqrtW randW alphaOne 2 2 2 false)[0]?
        = some (morphFrameAt trigW sqrtW randW alphaOne 2 2 2 0 false) ∧
     ∀ p : ℤ × ℤ, p ∈ (morphFrameAt trigW sqrtW randW alphaOne 2 2 2 0 false).drawn ↔
       ∃ x y : ℕ, x < 2 ∧ y < 2 ∧ 0 < alphaOne x y ∧ p = ((x : ℤ), (y : ℤ))) :=
  ⟨⟨by decide, by norm_num [trigW], rfl, by decide⟩,
   morph_first_frame_eq_silhouette trigW sqrtW randW alphaOne 2 2 2 false (by decide)
     (by norm_num [trigW]) rfl (by decide)⟩

/-- Witness for C1 at a concrete input. -/
theorem build_spritesheet_positions_correct_witness :
    (1 ≤ 3 ∧ 0 < 2 ∧ 0 < 5) ∧
    ((build_spritesheet_positions 3 2 5).length = 3 ∧
     (∀ i, i < 3 → (build_spritesheet_positions 3 2 5)[i]? =
       some ((i % ceilSqrt 3) * 2, (i / ceilSqrt 3) * 5)) ∧
     (∀ i j, i < 3 → j < 3 → i ≠ j →
       (build_spritesheet_positions 3 2 5)[i]? ≠ (build_spritesheet_positions 3 2 5)[j]?) ∧
     (∀ p ∈ build_spritesheet_positions 3 2 5, 2 ∣ p.1 ∧ 5 ∣ p.2) ∧
     (∀ p ∈ build_spritesheet_positions 3 2 5,
       p.1 + 2 ≤ (build_spritesheet_size 3 2 5).1 ∧
       p.2 + 5 ≤ (build_spritesheet_size 3 2 5).2) ∧
     build_spritesheet_size 3 2 5 = (ceilSqrt 3 * 2, natCeilDiv 3 (ceilSqrt 3) * 5) ∧
     3 ≤ ceilSqrt 3 * ceilSqrt 3 ∧ (ceilSqrt 3 - 1) * (ceilSqrt 3 - 1) < 3) :=
  ⟨⟨by decide, by decide, by decide⟩,
   build_spritesheet_positions_correct 3 2 5 (by decide) (by decide) (by decide)⟩
